import Mathlib

/-!
# Verification of the cleancat "chausie" schema engine

Shallow embedding of `cleancat/chausie/schema.py`: the dependency-aware
schema evaluation loop (`_clean`), raw-value extraction (`getter` and the
accepted-keys loop), definition-time dependency resolution
(`_check_for_dependency_loops` via the `schema` decorator), and
serialization (`_serialize`).

The per-field validator executor (`run_validators`, living in
`cleancat/chausie/field.py`, which is not part of the sources) is modelled
from the spec (sections 4.1 and 4.2), with the concrete error messages taken
from the test suite (`src/tests/chausie/test_field.py`).

Python values are modelled by `Val` (None, the `omitted` sentinel, ints,
strings, booleans).  Python dicts are association lists in insertion order;
duplicate keys never arise because schema fields come from a class `__dict__`.
-/

namespace Chausie

/-- A dynamically-typed value: Python `None`, the `omitted` sentinel from
`cleancat.chausie.consts`, or an ordinary payload (int, string, bool). -/
inductive Val where
  | vnull
  | vomitted
  | vint (n : Int)
  | vstr (s : String)
  | vbool (b : Bool)
deriving DecidableEq, Repr

/-- A single validation failure: a message and the field path it belongs to
(spec section 3: "a human-readable message and the field path (a sequence of
names, to support nesting)"). -/
structure ErrorRec where
  msg : String
  field : List String
deriving DecidableEq, Repr

/-- Outcome of evaluating one field, `Union[Value, Error]` in `_clean`.
Modelled from the spec: the validator executor "produces exactly one Value or
one Error" (section 4.1); an error outcome flattens to a non-empty list of
`ErrorRec` (one error flattens to itself; a nested schema failure carries the
inner errors), so `failure` stores a head error plus the remaining ones. -/
inductive Outcome where
  | value (v : Val)
  | failure (e : ErrorRec) (rest : List ErrorRec)
deriving DecidableEq, Repr

/-- `isinstance(v, Value)` as used by `_clean`. -/
def isValueO : Outcome → Bool
  | .value _ => true
  | .failure _ _ => false

/-- `v.flatten()` for error outcomes; a `value` contributes nothing
(`_clean` only flattens the non-Value outcomes). -/
def flattenO : Outcome → List ErrorRec
  | .value _ => []
  | .failure e rest => e :: rest

/-- `v.value`: payload of a `Value` outcome.  Only reached on the success
path of `_clean`, where every outcome is a `value`. -/
def payloadO : Outcome → Val
  | .value v => v
  | .failure _ _ => Val.vnull

/-- The `results` dict of `_clean`: field name to outcome, in insertion
(= evaluation) order. -/
abbrev Results := List (String × Outcome)

/-- A validator function ("parent").  Modelled from the spec (section 4.1):
each function receives the current value, the shared context and the map of
previously validated field outcomes, and returns a replacement value or an
error.  The capability introspection of the source (supplying only the
parameters a function declares) is collapsed into passing all three. -/
def Validator : Type := Val → Val → Results → Outcome

/-- Required/Optional nullability policy (spec section 4.2). -/
inductive Nullability where
  | required
  | optional
deriving DecidableEq, Repr

/-- A field definition: the validator chain plus metadata, per the spec data
model (section 3) and the attributes `_clean` / `_serialize` read
(`accepts`, `depends_on`, `serialize_to`, `serialize_func`).  An empty
`accepts` list encodes the unset case of the source (`field_def.accepts or
(field_name,)` falls back to the field name). -/
structure Field where
  validators : List Validator
  accepts : List String
  depends_on : List String
  nullability : Nullability
  serialize_to : Option String
  serialize_func : Val → Val

/-- Input record: a dict, or any other (attribute-bearing) object. -/
inductive InData where
  | dict (entries : List (String × Val))
  | obj (attrs : List (String × Val))

/-- Keys of an association list, in order. -/
def keysOf {α : Type} (l : List (String × α)) : List String := l.map Prod.fst

/-- First binding of `k` in an association list (Python dict lookup when the
keys are unique). -/
def lookupKey {α : Type} (l : List (String × α)) (k : String) : Option α :=
  (l.find? (fun p => p.1 == k)).map Prod.snd

/-- `getter(dict_or_obj, field, default)` from schema.py lines 19-23.
For a dict this is `dict_or_obj.get(field, default)`.  For anything else the
source evaluates `getattr(dict_or_obj, field, default)` but the `return`
keyword is missing, so the Python function falls through and returns `None`;
the embedding reproduces that faithfully. -/
def getter (dict_or_obj : InData) (fieldName : String) (dflt : Val) : Val :=
  match dict_or_obj with
  | .dict m => (lookupKey m fieldName).getD dflt
  | .obj _ => Val.vnull

/-- `field_def.accepts or (field_name,)` from schema.py line 79. -/
def acceptsOf (fieldName : String) (f : Field) : List String :=
  match f.accepts with
  | [] => [fieldName]
  | l => l

/-- The accepted-keys loop of `_clean` (schema.py lines 80-85): take the
first accepted key whose `getter` value is not the `omitted` sentinel. -/
def extractRawGo (data : InData) : List String → Val
  | [] => Val.vomitted
  | a :: rest =>
    let v := getter data a Val.vomitted
    if v = Val.vomitted then extractRawGo data rest else v

/-- Raw-value extraction for a field (schema.py lines 79-85). -/
def extractRaw (data : InData) (fieldName : String) (f : Field) : Val :=
  extractRawGo data (acceptsOf fieldName f)

/-- Prefix every error path of an outcome with `path` (the outer field name):
how a field error (path `()` from the validator) or a nested failure is
reported under the outer field.  Modelled from the spec (section 3:
"a nested field's own ValidationError contributes its inner Errors with an
extended field path"). -/
def addPath (path : List String) : Outcome → Outcome
  | .value v => .value v
  | .failure e rest =>
    .failure { e with field := path ++ e.field }
      (rest.map (fun r => { r with field := path ++ r.field }))

/-- Run the ordered validator chain: each function gets the previous value
and may replace it or abort with an error (spec section 4.1). -/
def runChain : List Validator → Val → Val → Results → Outcome
  | [], v, _, _ => .value v
  | g :: gs, v, ctx, ir =>
    match g v ctx ir with
    | .value v2 => runChain gs v2 ctx ir
    | .failure e rest => .failure e rest

/-- Modelled from the spec: `field_def.run_validators(field=(field_name,),
value=..., context=..., intermediate_results=...)` lives in
`cleancat/chausie/field.py`, which is not under src.  Spec section 4.2 gives
the nullability policy (applied strictly before the chain), and the test
suite pins the two Required error messages. -/
def run_validators (f : Field) (path : List String) (v : Val) (ctx : Val)
    (ir : Results) : Outcome :=
  match f.nullability with
  | .required =>
    if v = Val.vomitted then .failure ⟨"Value is required.", path⟩ []
    else if v = Val.vnull then
      .failure ⟨"Value is required, and must not be None.", path⟩ []
    else addPath path (runChain f.validators v ctx ir)
  | .optional =>
    if v = Val.vomitted then .value Val.vomitted
    else if v = Val.vnull then .value Val.vnull
    else addPath path (runChain f.validators v ctx ir)

/-- Python dict assignment `results[field_name] = ...`: overwrite in place if
the key exists, otherwise append. -/
def dictInsert {α : Type} (l : List (String × α)) (k : String) (v : α) :
    List (String × α) :=
  if k ∈ keysOf l then l.map (fun p => if p.1 = k then (k, v) else p)
  else l ++ [(k, v)]

/-- Does `r` record a `Value` outcome for key `k`?
(`dep in results and isinstance(results[dep], Value)` in `_clean`.) -/
def isValueAt (r : Results) (k : String) : Bool :=
  match lookupKey r k with
  | some o => isValueO o
  | none => false

/-- The re-scan of `delayed_eval` after a field completes (schema.py lines
94-106): a delayed field becomes eligible when it has no outcome yet, is not
already queued, and all of its dependencies have `Value` outcomes. -/
def eligibleAfter (delayed : List (String × Field)) (results2 : Results)
    (rest : List (String × Field)) : List (String × Field) :=
  delayed.filter (fun nf =>
    (lookupKey results2 nf.1).isNone
      && !((keysOf rest).contains nf.1)
      && nf.2.depends_on.all (fun dep => isValueAt results2 dep))

/-- The `while eval_queue` loop of `_clean` (schema.py lines 76-106).
`eval_queue.pop()` pops from the end of a Python list, so the queue is kept
reversed here: the head is the next field to pop, and fields appended by the
re-scan go in front (last appended is popped first).  The loop is written
with explicit fuel; `cleanLoop_spec` below shows that `fields.length` fuel
always drains the queue. -/
def cleanLoop (data : InData) (ctx : Val) (delayed : List (String × Field)) :
    Nat → List (String × Field) → Results → List (String × Field) × Results
  | 0, queue, results => (queue, results)
  | _ + 1, [], results => ([], results)
  | fuel + 1, nf :: rest, results =>
    let value := extractRaw data nf.1 nf.2
    let res := run_validators nf.2 [nf.1] value ctx results
    let results2 := dictInsert results nf.1 res
    cleanLoop data ctx delayed fuel
      ((eligibleAfter delayed results2 rest).reverse ++ rest) results2

/-- Fields with dependencies go to `delayed_eval` (schema.py lines 68-72). -/
def delayedOf (fields : List (String × Field)) : List (String × Field) :=
  fields.filter (fun nf => !nf.2.depends_on.isEmpty)

/-- The initial `eval_queue` (no-dependency fields, declaration order),
reversed because the head of our queue is the next pop. -/
def initialQueue (fields : List (String × Field)) : List (String × Field) :=
  (fields.filter (fun nf => nf.2.depends_on.isEmpty)).reverse

/-- One pass of `_check_for_dependency_loops`: find the first pending field
whose declared dependencies are all in `seen`, and remove it (Python
`deps.pop(f_name)` keeps the order of the rest). -/
def extractResolvable (seen : List String) :
    List (String × List String) → Option (String × List (String × List String))
  | [] => none
  | (n, ds) :: rest =>
    if ds.all (fun d => seen.contains d) then some (n, rest)
    else
      match extractResolvable seen rest with
      | some (m, rest2) => some (m, (n, ds) :: rest2)
      | none => none

/-- The `while deps` loop of `_check_for_dependency_loops` (schema.py lines
145-155): resolve one field per pass; if a full pass makes no progress the
source raises `ValueError`.  Each pass removes one pending entry, so
`deps.length` fuel is exactly enough. -/
def checkDepsGo : Nat → List (String × List String) → List String → Bool
  | _, [], _ => true
  | 0, _ :: _, _ => false
  | fuel + 1, d :: ds, seen =>
    match extractResolvable seen (d :: ds) with
    | none => false
    | some (n, rest) => checkDepsGo fuel rest (n :: seen)

/-- `_check_for_dependency_loops` (schema.py lines 140-155): `True` means the
dependency sets resolve, `False` means the source raises
`ValueError("Field dependencies could not be resolved.")`.  It reads only
the declared `depends_on` sets, never any input data. -/
def checkDeps (fields : List (String × Field)) : Bool :=
  checkDepsGo fields.length (fields.map (fun nf => (nf.1, nf.2.depends_on))) []

/-- The `@schema` class decorator (schema.py lines 158-179): at definition
time it runs the dependency-loop check and raises before any `clean` call
can be made. -/
def schemaAnnotate (fields : List (String × Field)) :
    Except String (List (String × Field)) :=
  if checkDeps fields then Except.ok fields
  else Except.error "Field dependencies could not be resolved."

/-- A defined schema: its fields in declaration order.  Field names are
unique because `get_fields` reads a class `__dict__`, and the `@schema`
decorator has already run the dependency-loop check, so any `Schema` value
on which `clean` can be called satisfies both. -/
structure Schema where
  fields : List (String × Field)
  nodup : (keysOf fields).Nodup
  acyclic : checkDeps fields = true

/-- The `results` dict produced by the evaluation loop of `_clean` for a
schema, input and context. -/
def cleanResults (s : Schema) (data : InData) (ctx : Val) : Results :=
  (cleanLoop data ctx (delayedOf s.fields) s.fields.length
      (initialQueue s.fields) []).2

/-- The aggregated error list of `_clean` (schema.py lines 108-116):
flatten every non-Value outcome, in results (= evaluation) order. -/
def errorsOfResults (r : Results) : List ErrorRec :=
  ((r.filter (fun p => !isValueO p.2)).map (fun p => flattenO p.2)).flatten

/-- Result of `clean`: a schema instance (attribute list) or the returned
(never raised) `ValidationError` with its error list. -/
inductive CleanResult where
  | ok (inst : List (String × Val))
  | err (errors : List ErrorRec)
deriving DecidableEq, Repr

/-- `_clean` (schema.py lines 59-120): evaluate all eligible fields, then
return `ValidationError(errors=...)` if any error was collected, else a new
instance whose attribute for each evaluated field is its Value payload. -/
def _clean (s : Schema) (data : InData) (ctx : Val) : CleanResult :=
  let results := cleanResults s data ctx
  let errors := errorsOfResults results
  if errors.isEmpty then
    .ok (results.map (fun p => (p.1, payloadO p.2)))
  else .err errors

/-- `_serialize` (schema.py lines 130-137): for each field emit
`field_def.serialize_func(getattr(self, field_name))` under
`field_def.serialize_to or field_name`.  A successfully constructed instance
has an attribute for every field; the `getD` default is never reached
there. -/
def _serialize (s : Schema) (inst : List (String × Val)) :
    List (String × Val) :=
  s.fields.map (fun nf =>
    (nf.2.serialize_to.getD nf.1,
      nf.2.serialize_func ((lookupKey inst nf.1).getD Val.vnull)))

/-- The portion of the results list recorded strictly before key `n` was
inserted (the intermediate results that `n`'s validators could observe). -/
def beforeKey (r : Results) (n : String) : Results :=
  r.takeWhile (fun p => !(p.1 == n))

/-- Invariant of the `while eval_queue` loop of `_clean`, for a schema with
(necessarily) unique field names.  `queue` is the reversed `eval_queue`,
`results` the outcomes recorded so far. -/
structure LoopInv (fields : List (String × Field))
    (queue : List (String × Field)) (results : Results) : Prop where
  ndR : (keysOf results).Nodup
  ndQ : (keysOf queue).Nodup
  disj : ∀ k ∈ keysOf results, k ∉ keysOf queue
  qmem : ∀ nf ∈ queue, nf ∈ fields
  rmem : ∀ p ∈ results, p.1 ∈ keysOf fields
  qdeps : ∀ nf ∈ queue, ∀ dep ∈ nf.2.depends_on, isValueAt results dep = true
  rdeps : ∀ n f, (n, f) ∈ fields → n ∈ keysOf results →
      ∀ dep ∈ f.depends_on, isValueAt (beforeKey results n) dep = true
  rpaths : ∀ p ∈ results, ∀ e ∈ flattenO p.2, e.field.head? = some p.1
  complete : ∀ n f, (n, f) ∈ fields →
      (∀ dep ∈ f.depends_on, isValueAt results dep = true) →
      n ∈ keysOf queue ∨ n ∈ keysOf results

/-! ## Concrete fields and schemas from the test suite -/

/-- Modelled from the spec: `intfield` (field.py is not under src) is the
builtin single-function chain for int; it passes ints through unchanged and
rejects anything else. -/
def intfield : Validator := fun v _ _ =>
  match v with
  | .vint _ => .value v
  | _ => .failure ⟨"Unable to parse value as an int.", []⟩ []

/-- The inline `mylowint` validator of the example schema in the tests:
accept ints below 5, otherwise `Error(msg="Needs to be less than 5")`. -/
def mylowintCheck : Validator := fun v _ _ =>
  match v with
  | .vint n => if n < 5 then .value v else .failure ⟨"Needs to be less than 5", []⟩ []
  | _ => .failure ⟨"Needs to be less than 5", []⟩ []

/-- `myint = simple_field(parents=(intfield,), accepts=("myint", "deprecated_int"))`. -/
def myintField : Field :=
  { validators := [intfield], accepts := ["myint", "deprecated_int"],
    depends_on := [], nullability := .required, serialize_to := none,
    serialize_func := fun v => v }

/-- `mylowint = field(parents=(intfield,))` applied to the inline check:
a two-step chain. -/
def mylowintField : Field :=
  { validators := [intfield, mylowintCheck], accepts := [], depends_on := [],
    nullability := .required, serialize_to := none,
    serialize_func := fun v => v }

/-- The `ExampleSchema` of the tests: `myint` then `mylowint`. -/
def exampleSchema : Schema :=
  ⟨[("myint", myintField), ("mylowint", mylowintField)], by decide, by decide⟩

/-- A required field with no validators and no dependencies. -/
def fieldA : Field :=
  { validators := [], accepts := [], depends_on := [],
    nullability := .required, serialize_to := none,
    serialize_func := fun v => v }

/-- A field depending on `A`. -/
def fieldB : Field := { fieldA with depends_on := ["A"] }

/-- Two-field schema in which `B` depends on `A`. -/
def depSchema : Schema := ⟨[("A", fieldA), ("B", fieldB)], by decide, by decide⟩

/-- A field depending on `B`. -/
def cycFieldA : Field := { fieldA with depends_on := ["B"] }

/-- A field depending on `A`. -/
def cycFieldB : Field := { fieldA with depends_on := ["A"] }

def happyData : InData := .dict [("myint", .vint 100), ("mylowint", .vint 2)]

def failData : InData := .dict [("myint", .vint 100), ("mylowint", .vint 10)]

def altData : InData := .dict [("deprecated_int", .vint 100), ("mylowint", .vint 2)]

/-! ## Association-list lemmas -/

theorem keysOf_append {α : Type} (l1 l2 : List (String × α)) :
    keysOf (l1 ++ l2) = keysOf l1 ++ keysOf l2 := List.map_append _ _ _

theorem keysOf_reverse {α : Type} (l : List (String × α)) :
    keysOf l.reverse = (keysOf l).reverse := List.map_reverse _ _

theorem mem_keysOf {α : Type} {l : List (String × α)} {k : String} :
    k ∈ keysOf l ↔ ∃ v, (k, v) ∈ l := by
  unfold keysOf
  constructor
  · intro h
    rcases List.mem_map.mp h with ⟨p, hp, hk⟩
    exact ⟨p.2, by simpa [← hk] using hp⟩
  · rintro ⟨v, hv⟩
    exact List.mem_map.mpr ⟨(k, v), hv, rfl⟩

theorem keysOf_sublist {α : Type} {l1 l2 : List (String × α)}
    (h : l1.Sublist l2) : (keysOf l1).Sublist (keysOf l2) := List.Sublist.map _ h

theorem lookupKey_eq_none {α : Type} {l : List (String × α)} {k : String} :
    lookupKey l k = none ↔ k ∉ keysOf l := by
  induction l with
  | nil => simp [lookupKey, keysOf]
  | cons p l ih =>
    by_cases hk : p.1 = k
    · simp [lookupKey, keysOf, List.find?_cons, hk]
    · simpa [lookupKey, keysOf, List.find?_cons, hk, Ne.symm hk] using ih

theorem lookupKey_isSome {α : Type} {l : List (String × α)} {k : String} :
    (lookupKey l k).isSome = true ↔ k ∈ keysOf l := by
  rw [Option.isSome_iff_ne_none]
  constructor
  · intro h
    by_contra hk
    exact h (lookupKey_eq_none.mpr hk)
  · intro h he
    exact lookupKey_eq_none.mp he h

theorem lookupKey_mem {α : Type} {l : List (String × α)} {k : String} {v : α}
    (h : lookupKey l k = some v) : (k, v) ∈ l := by
  unfold lookupKey at h
  rcases Option.map_eq_some'.mp h with ⟨p, hp, hv⟩
  have hmem := List.mem_of_find?_eq_some hp
  have hpred := List.find?_some hp
  have hk : p.1 = k := by simpa using hpred
  have : p = (k, v) := by
    cases p
    simp only at hk hv
    simp [hk, hv]
  rwa [this] at hmem

theorem mem_lookupKey {α : Type} {l : List (String × α)} {k : String} {v : α}
    (hnd : (keysOf l).Nodup) (h : (k, v) ∈ l) : lookupKey l k = some v := by
  induction l with
  | nil => cases h
  | cons p l ih =>
    rcases List.mem_cons.mp h with h | h
    · subst h
      simp [lookupKey, List.find?_cons]
    · have hk : p.1 ≠ k := by
        intro hk
        have : k ∈ keysOf l := mem_keysOf.mpr ⟨v, h⟩
        have : p.1 ∈ keysOf l := hk ▸ this
        exact (List.nodup_cons.mp hnd).1 this
      have hnd2 : (keysOf l).Nodup := (List.nodup_cons.mp hnd).2
      simpa [lookupKey, List.find?_cons, hk] using ih hnd2 h

theorem lookupKey_append_of_notMem {α : Type} {l1 : List (String × α)}
    {k : String} (h : k ∉ keysOf l1) (l2 : List (String × α)) :
    lookupKey (l1 ++ l2) k = lookupKey l2 k := by
  induction l1 with
  | nil => rfl
  | cons p l ih =>
    have hk : p.1 ≠ k := by
      intro hk
      exact h (by simp [keysOf, hk])
    have h2 : k ∉ keysOf l := fun hm => h (by simp [keysOf] at hm ⊢; tauto)
    simpa [lookupKey, List.find?_cons, hk] using ih h2

theorem lookupKey_append_of_some {α : Type} {l1 : List (String × α)}
    {k : String} {v : α} (h : lookupKey l1 k = some v)
    (l2 : List (String × α)) : lookupKey (l1 ++ l2) k = some v := by
  induction l1 with
  | nil => cases h
  | cons p l ih =>
    by_cases hk : p.1 = k
    · simp [lookupKey, List.find?_cons, hk] at h ⊢
      exact h
    · rw [List.cons_append]
      unfold lookupKey at h ⊢
      rw [List.find?_cons] at h ⊢
      simp only [show (p.1 == k) = false from by simp [hk]] at h ⊢
      exact ih h

theorem keyUnique {α : Type} {l : List (String × α)}
    (hnd : (keysOf l).Nodup) {k : String} {v w : α}
    (hv : (k, v) ∈ l) (hw : (k, w) ∈ l) : v = w := by
  have h1 := mem_lookupKey hnd hv
  have h2 := mem_lookupKey hnd hw
  rw [h1] at h2
  exact (Option.some.injEq _ _).mp h2

theorem dictInsert_of_notMem {α : Type} {l : List (String × α)} {k : String}
    (h : k ∉ keysOf l) (v : α) : dictInsert l k v = l ++ [(k, v)] := by
  simp [dictInsert, h]

theorem isValueAt_mono {r : Results} {k : String}
    (h : isValueAt r k = true) (l : Results) : isValueAt (r ++ l) k = true := by
  unfold isValueAt at h ⊢
  rcases ho : lookupKey r k with _ | o
  · rw [ho] at h; cases h
  · rw [ho] at h
    rw [lookupKey_append_of_some ho l]
    exact h

theorem isValueAt_mem {r : Results} {k : String} (h : isValueAt r k = true) :
    k ∈ keysOf r := by
  unfold isValueAt at h
  rcases ho : lookupKey r k with _ | o
  · rw [ho] at h; cases h
  · exact mem_keysOf.mpr ⟨o, lookupKey_mem ho⟩

theorem lookupKey_map_fst {α β : Type} (g : String × α → β)
    (l : List (String × α)) (k : String) :
    lookupKey (l.map (fun p => (p.1, g p))) k =
      (l.find? (fun p => p.1 == k)).map g := by
  induction l with
  | nil => rfl
  | cons p l ih =>
    by_cases hk : p.1 = k
    · simp [lookupKey, List.find?_cons, hk]
    · simpa [lookupKey, List.find?_cons, hk] using ih

/-! ## Decoding the loop's membership tests -/

theorem mem_delayedOf {fields : List (String × Field)} {nf : String × Field} :
    nf ∈ delayedOf fields ↔ nf ∈ fields ∧ nf.2.depends_on ≠ [] := by
  simp [delayedOf, List.mem_filter, List.isEmpty_iff]

theorem mem_initialQueue {fields : List (String × Field)} {nf : String × Field} :
    nf ∈ initialQueue fields ↔ nf ∈ fields ∧ nf.2.depends_on = [] := by
  simp [initialQueue, List.mem_filter, List.isEmpty_iff]

theorem mem_eligibleAfter {delayed : List (String × Field)} {results2 : Results}
    {rest : List (String × Field)} {nf : String × Field} :
    nf ∈ eligibleAfter delayed results2 rest ↔
      nf ∈ delayed ∧ nf.1 ∉ keysOf results2 ∧ nf.1 ∉ keysOf rest ∧
        ∀ dep ∈ nf.2.depends_on, isValueAt results2 dep = true := by
  simp only [eligibleAfter, List.mem_filter, Bool.and_eq_true, Bool.not_eq_true',
    List.all_eq_true, Option.isNone_iff_eq_none, and_congr_right_iff]
  intro _
  rw [lookupKey_eq_none]
  constructor
  · rintro ⟨⟨h1, h2⟩, h3⟩
    refine ⟨h1, by simpa using h2, fun dep hd => h3 dep hd⟩
  · rintro ⟨h1, h2, h3⟩
    exact ⟨⟨h1, by simpa using h2⟩, fun dep hd => h3 dep hd⟩

theorem beforeKey_append_of_mem {r : Results} {n : String}
    (h : n ∈ keysOf r) (l : Results) : beforeKey (r ++ l) n = beforeKey r n := by
  induction r with
  | nil => simp [keysOf] at h
  | cons p r ih =>
    by_cases hk : p.1 = n
    · simp [beforeKey, List.takeWhile_cons, hk]
    · have h2 : n ∈ keysOf r := by
        rcases mem_keysOf.mp h with ⟨v, hv⟩
        rcases List.mem_cons.mp hv with hv | hv
        · exact absurd (congrArg Prod.fst hv).symm hk
        · exact mem_keysOf.mpr ⟨v, hv⟩
      simpa [beforeKey, List.takeWhile_cons, hk] using ih h2

theorem beforeKey_append_self {r : Results} {n : String} (h : n ∉ keysOf r)
    (o : Outcome) (l : Results) : beforeKey (r ++ (n, o) :: l) n = r := by
  induction r with
  | nil => simp [beforeKey, List.takeWhile_cons]
  | cons p r ih =>
    have hk : p.1 ≠ n := by
      intro hk
      exact h (by simp [keysOf, hk])
    have h2 : n ∉ keysOf r := fun hm => h (by simp [keysOf] at hm ⊢; tauto)
    simpa [beforeKey, List.takeWhile_cons, hk] using ih h2

theorem isValueAt_of_beforeKey {r : Results} {n dep : String}
    (h : isValueAt (beforeKey r n) dep = true) : isValueAt r dep = true := by
  have hsplit := List.takeWhile_append_dropWhile
    (p := fun p : String × Outcome => !(p.1 == n)) (l := r)
  calc isValueAt r dep
      = isValueAt (beforeKey r n ++ r.dropWhile (fun p => !(p.1 == n))) dep := by
        rw [beforeKey, hsplit]
    _ = true := isValueAt_mono h _

/-- Every error produced by `run_validators` for field `n` (called with
`field=(n,)` as in `_clean`) carries a path starting with `n`. -/
theorem run_validators_paths (f : Field) (n : String) (v ctx : Val)
    (ir : Results) :
    ∀ e ∈ flattenO (run_validators f [n] v ctx ir), e.field.head? = some n := by
  have hchain : ∀ e2 ∈ flattenO (addPath [n] (runChain f.validators v ctx ir)),
      e2.field.head? = some n := by
    intro e2 he2
    rcases hc : runChain f.validators v ctx ir with v2 | ⟨e1, rest1⟩ <;>
      rw [hc] at he2 <;> simp [addPath, flattenO] at he2
    rcases he2 with he2 | ⟨r1, hr1, he2⟩
    · rw [he2]; rfl
    · rw [← he2]; rfl
  intro e he
  unfold run_validators at he
  rcases hn : f.nullability with _ | _ <;> rw [hn] at he <;>
    by_cases h1 : v = Val.vomitted <;> by_cases h2 : v = Val.vnull <;>
      simp only [h1, h2, if_true, if_false, reduceIte] at he <;>
      first
      | exact hchain e he
      | (rcases List.mem_cons.mp he with he | he
         · rw [he]; rfl
         · cases he)
      | simp [flattenO] at he

/-! ## The evaluation-loop invariant -/

theorem keysOf_cons {α : Type} (p : String × α) (l : List (String × α)) :
    keysOf (p :: l) = p.1 :: keysOf l := rfl

theorem eligible_sublist (delayed : List (String × Field)) (results2 : Results)
    (rest : List (String × Field)) :
    (eligibleAfter delayed results2 rest).Sublist delayed := List.filter_sublist _

theorem delayedOf_sublist (fields : List (String × Field)) :
    (delayedOf fields).Sublist fields := List.filter_sublist _

/-- One pop of the evaluation loop preserves the invariant. -/
theorem loopInv_step {fields : List (String × Field)}
    (hfnd : (keysOf fields).Nodup) {n0 : String} {f0 : Field}
    {rest : List (String × Field)} {results : Results} (res : Outcome)
    (hres : ∀ e ∈ flattenO res, e.field.head? = some n0)
    (inv : LoopInv fields ((n0, f0) :: rest) results) :
    LoopInv fields
      ((eligibleAfter (delayedOf fields) (results ++ [(n0, res)]) rest).reverse
        ++ rest)
      (results ++ [(n0, res)]) := by
  have hn0fields : (n0, f0) ∈ fields := inv.qmem (n0, f0) (List.mem_cons_self _ _)
  have hndQold : (n0 :: keysOf rest).Nodup := by
    have := inv.ndQ
    rwa [keysOf_cons] at this
  have hn0rest : n0 ∉ keysOf rest := (List.nodup_cons.mp hndQold).1
  have hn0res : n0 ∉ keysOf results := fun h =>
    inv.disj n0 h (by rw [keysOf_cons]; exact List.mem_cons_self _ _)
  have hk2 : keysOf (results ++ [(n0, res)]) = keysOf results ++ [n0] :=
    keysOf_append _ _
  have hmem2 : ∀ k, k ∈ keysOf (results ++ [(n0, res)]) ↔
      k ∈ keysOf results ∨ k = n0 := by
    intro k
    rw [hk2]
    simp
  set E := eligibleAfter (delayedOf fields) (results ++ [(n0, res)]) rest with hE
  have hEfacts : ∀ nf ∈ E, nf ∈ delayedOf fields ∧
      nf.1 ∉ keysOf (results ++ [(n0, res)]) ∧ nf.1 ∉ keysOf rest ∧
      ∀ dep ∈ nf.2.depends_on, isValueAt (results ++ [(n0, res)]) dep = true :=
    fun nf h => mem_eligibleAfter.mp h
  have hkeysE : ∀ k ∈ keysOf E, ∃ nf ∈ E, nf.1 = k := by
    intro k hk
    rcases mem_keysOf.mp hk with ⟨f, hf⟩
    exact ⟨(k, f), hf, rfl⟩
  have hQ2mem : ∀ k, k ∈ keysOf (E.reverse ++ rest) ↔
      k ∈ keysOf E ∨ k ∈ keysOf rest := by
    intro k
    rw [keysOf_append, keysOf_reverse]
    simp
  constructor
  case ndR =>
    rw [hk2, List.nodup_append]
    refine ⟨inv.ndR, List.nodup_singleton _, ?_⟩
    intro k hk
    simp only [List.mem_singleton]
    intro hkn
    exact hn0res (hkn ▸ hk)
  case ndQ =>
    rw [keysOf_append, List.nodup_append, keysOf_reverse, List.nodup_reverse]
    refine ⟨?_, (List.nodup_cons.mp hndQold).2, ?_⟩
    · exact List.Nodup.sublist
        (keysOf_sublist ((eligible_sublist _ _ _).trans (delayedOf_sublist _)))
        hfnd
    · intro k hk
      rw [List.mem_reverse] at hk
      rcases hkeysE k hk with ⟨nf, hnf, hk2b⟩
      exact hk2b ▸ (hEfacts nf hnf).2.2.1
  case disj =>
    intro k hk
    rw [hQ2mem]
    rintro (hkE | hkrest)
    · rcases hkeysE k hkE with ⟨nf, hnf, hk2b⟩
      exact (hEfacts nf hnf).2.1 (hk2b ▸ hk)
    · rcases (hmem2 k).mp hk with hk | hk
      · exact inv.disj k hk
          (by rw [keysOf_cons]; exact List.mem_cons_of_mem _ hkrest)
      · exact hn0rest (hk ▸ hkrest)
  case qmem =>
    intro nf hnf
    rcases List.mem_append.mp hnf with hnf | hnf
    · rw [List.mem_reverse] at hnf
      exact (delayedOf_sublist fields).mem ((mem_eligibleAfter.mp hnf).1)
    · exact inv.qmem nf (List.mem_cons_of_mem _ hnf)
  case rmem =>
    intro p hp
    rcases List.mem_append.mp hp with hp | hp
    · exact inv.rmem p hp
    · rw [List.mem_singleton] at hp
      rw [hp]
      exact mem_keysOf.mpr ⟨f0, hn0fields⟩
  case qdeps =>
    intro nf hnf dep hdep
    rcases List.mem_append.mp hnf with hnf | hnf
    · rw [List.mem_reverse] at hnf
      exact (hEfacts nf hnf).2.2.2 dep hdep
    · exact isValueAt_mono
        (inv.qdeps nf (List.mem_cons_of_mem _ hnf) dep hdep) _
  case rdeps =>
    intro n f hnf hn dep hdep
    rcases (hmem2 n).mp hn with hn | hn
    · rw [beforeKey_append_of_mem hn]
      exact inv.rdeps n f hnf hn dep hdep
    · subst hn
      have hf : f = f0 := keyUnique hfnd hnf hn0fields
      rw [show results ++ [(n, res)] = results ++ (n, res) :: [] from rfl,
        beforeKey_append_self hn0res]
      exact inv.qdeps (n, f0) (List.mem_cons_self _ _) dep (hf ▸ hdep)
  case rpaths =>
    intro p hp e he
    rcases List.mem_append.mp hp with hp | hp
    · exact inv.rpaths p hp e he
    · rw [List.mem_singleton] at hp
      rw [hp] at he ⊢
      exact hres e he
  case complete =>
    intro n f hnf hdeps
    by_cases hn : n ∈ keysOf results ∨ n = n0
    · exact Or.inr ((hmem2 n).mpr hn)
    · push_neg at hn
      by_cases hrest : n ∈ keysOf rest
      · exact Or.inl ((hQ2mem n).mpr (Or.inr hrest))
      · rcases hd : f.depends_on with _ | ⟨d, ds⟩
        · rcases inv.complete n f hnf (by rw [hd]; intro dep hdep; cases hdep)
            with hq | hr
          · rw [keysOf_cons] at hq
            rcases List.mem_cons.mp hq with hq | hq
            · exact absurd hq hn.2
            · exact absurd hq hrest
          · exact absurd hr hn.1
        · refine Or.inl ((hQ2mem n).mpr (Or.inl ?_))
          have hmemE : (n, f) ∈ E := by
            rw [hE]
            refine mem_eligibleAfter.mpr ⟨?_, ?_, hrest, hdeps⟩
            · exact mem_delayedOf.mpr ⟨hnf, by rw [hd]; simp⟩
            · rw [hmem2]
              rintro (h | h)
              · exact hn.1 h
              · exact hn.2 h
          exact mem_keysOf.mpr ⟨f, hmemE⟩

/-- The loop started with `fields.length` fuel always drains the queue, and
the invariant holds for the final results. -/
theorem cleanLoop_spec (data : InData) (ctx : Val)
    {fields : List (String × Field)} (hfnd : (keysOf fields).Nodup) :
    ∀ fuel (queue : List (String × Field)) (results : Results),
      LoopInv fields queue results →
      fields.length ≤ fuel + results.length →
      (cleanLoop data ctx (delayedOf fields) fuel queue results).1 = [] ∧
      LoopInv fields []
        (cleanLoop data ctx (delayedOf fields) fuel queue results).2 := by
  intro fuel
  induction fuel with
  | zero =>
    intro queue results inv hlen
    have hsub : (keysOf results ++ keysOf queue) ⊆ keysOf fields := by
      intro k hk
      rcases List.mem_append.mp hk with hk | hk
      · rcases mem_keysOf.mp hk with ⟨o, ho⟩
        exact inv.rmem (k, o) ho
      · rcases mem_keysOf.mp hk with ⟨f, hf⟩
        exact mem_keysOf.mpr ⟨f, inv.qmem (k, f) hf⟩
    have hnd : (keysOf results ++ keysOf queue).Nodup := by
      rw [List.nodup_append]
      exact ⟨inv.ndR, inv.ndQ, inv.disj⟩
    have hle := (List.subperm_of_subset hnd hsub).length_le
    rw [List.length_append] at hle
    have h1 : (keysOf results).length = results.length := List.length_map _ _
    have h2 : (keysOf queue).length = queue.length := List.length_map _ _
    have h3 : (keysOf fields).length = fields.length := List.length_map _ _
    have hq : queue = [] := List.length_eq_zero.mp (by omega)
    subst hq
    exact ⟨rfl, inv⟩
  | succ fuel ih =>
    intro queue results inv hlen
    match queue with
    | [] => exact ⟨rfl, inv⟩
    | (n0, f0) :: rest =>
      have hn0res : n0 ∉ keysOf results := fun h =>
        inv.disj n0 h (by rw [keysOf_cons]; exact List.mem_cons_self _ _)
      have hstep :
          cleanLoop data ctx (delayedOf fields) (fuel + 1) ((n0, f0) :: rest)
              results =
            cleanLoop data ctx (delayedOf fields) fuel
              ((eligibleAfter (delayedOf fields)
                  (results ++ [(n0, run_validators f0 [n0]
                      (extractRaw data n0 f0) ctx results)]) rest).reverse
                ++ rest)
              (results ++ [(n0, run_validators f0 [n0]
                  (extractRaw data n0 f0) ctx results)]) := by
        simp only [cleanLoop]
        rw [dictInsert_of_notMem hn0res]
      rw [hstep]
      refine ih _ _
        (loopInv_step hfnd _ (run_validators_paths f0 n0 _ ctx results) inv) ?_
      have : (results ++ [(n0, run_validators f0 [n0]
          (extractRaw data n0 f0) ctx results)]).length = results.length + 1 := by
        simp
      omega

/-- Start of the loop: the invariant holds for the initial queue. -/
theorem loopInv_init {fields : List (String × Field)}
    (hfnd : (keysOf fields).Nodup) : LoopInv fields (initialQueue fields) [] := by
  constructor
  case ndR => exact List.nodup_nil
  case ndQ =>
    rw [initialQueue, keysOf_reverse, List.nodup_reverse]
    exact List.Nodup.sublist (keysOf_sublist (List.filter_sublist _)) hfnd
  case disj =>
    intro k hk
    simp [keysOf] at hk
  case qmem =>
    intro nf hnf
    exact (mem_initialQueue.mp hnf).1
  case rmem =>
    intro p hp
    cases hp
  case qdeps =>
    intro nf hnf dep hdep
    rw [(mem_initialQueue.mp hnf).2] at hdep
    cases hdep
  case rdeps =>
    intro n f hnf hn
    simp [keysOf] at hn
  case rpaths =>
    intro p hp
    cases hp
  case complete =>
    intro n f hnf hdeps
    rcases hd : f.depends_on with _ | ⟨d, ds⟩
    · exact Or.inl (mem_keysOf.mpr ⟨f, mem_initialQueue.mpr ⟨hnf, hd⟩⟩)
    · have := hdeps d (by rw [hd]; exact List.mem_cons_self _ _)
      simp [isValueAt, lookupKey] at this

/-- The evaluation loop's invariant, at the end of any `clean` call. -/
theorem cleanResults_inv (s : Schema) (data : InData) (ctx : Val) :
    LoopInv s.fields [] (cleanResults s data ctx) := by
  unfold cleanResults
  exact (cleanLoop_spec data ctx s.nodup s.fields.length (initialQueue s.fields)
    [] (loopInv_init s.nodup) (by simp)).2

/-- A field receives an outcome exactly when each of its declared
dependencies received a `Value` outcome. -/
theorem mem_cleanResults_iff (s : Schema) (data : InData) (ctx : Val)
    {n : String} {f : Field} (hmem : (n, f) ∈ s.fields) :
    n ∈ keysOf (cleanResults s data ctx) ↔
      ∀ dep ∈ f.depends_on, isValueAt (cleanResults s data ctx) dep = true := by
  have inv := cleanResults_inv s data ctx
  constructor
  · intro h dep hdep
    exact isValueAt_of_beforeKey (inv.rdeps n f hmem h dep hdep)
  · intro h
    rcases inv.complete n f hmem h with hq | hr
    · simp [keysOf] at hq
    · exact hr

/-! ## Error aggregation -/

theorem flattenO_ne_nil {o : Outcome} (h : isValueO o = false) :
    flattenO o ≠ [] := by
  cases o with
  | value v => cases h
  | failure e rest => simp [flattenO]

theorem errorsOfResults_cons (p : String × Outcome) (r : Results) :
    errorsOfResults (p :: r) =
      (if isValueO p.2 then [] else flattenO p.2) ++ errorsOfResults r := by
  unfold errorsOfResults
  rcases h : isValueO p.2 with _ | _ <;> simp [List.filter_cons, h]

theorem errorsOfResults_eq_nil_iff (r : Results) :
    errorsOfResults r = [] ↔ ∀ p ∈ r, isValueO p.2 = true := by
  induction r with
  | nil => simp [errorsOfResults]
  | cons p r ih =>
    rw [errorsOfResults_cons]
    rcases h : isValueO p.2 with _ | _
    · constructor
      · intro hh
        exfalso
        rcases List.append_eq_nil.mp (by simpa [h] using hh) with ⟨h1, _⟩
        exact flattenO_ne_nil h h1
      · intro hall
        exact absurd (hall p (List.mem_cons_self _ _)) (by rw [h]; simp)
    · constructor
      · intro hh q hq
        rcases List.mem_cons.mp hq with hq | hq
        · rw [hq]; exact h
        · exact (ih.mp (by simpa [h] using hh)) q hq
      · intro hall
        simp only [h, if_true, List.nil_append]
        exact ih.mpr (fun q hq => hall q (List.mem_cons_of_mem _ hq))

theorem mem_errorsOfResults {r : Results} {e : ErrorRec}
    (h : e ∈ errorsOfResults r) :
    ∃ p, p ∈ r ∧ isValueO p.2 = false ∧ e ∈ flattenO p.2 := by
  induction r with
  | nil => cases h
  | cons p r ih =>
    rw [errorsOfResults_cons] at h
    rcases hv : isValueO p.2 with _ | _ <;> rw [hv] at h <;> simp at h
    · rcases h with h | h
      · exact ⟨p, List.mem_cons_self _ _, hv, h⟩
      · rcases ih h with ⟨q, hq, hq2, hq3⟩
        exact ⟨q, List.mem_cons_of_mem _ hq, hq2, hq3⟩
    · rcases ih h with ⟨q, hq, hq2, hq3⟩
      exact ⟨q, List.mem_cons_of_mem _ hq, hq2, hq3⟩

theorem _clean_err {s : Schema} {data : InData} {ctx : Val}
    (h : errorsOfResults (cleanResults s data ctx) ≠ []) :
    _clean s data ctx = .err (errorsOfResults (cleanResults s data ctx)) := by
  unfold _clean
  rw [if_neg (by simpa [List.isEmpty_iff] using h)]

theorem _clean_ok {s : Schema} {data : InData} {ctx : Val}
    (h : errorsOfResults (cleanResults s data ctx) = []) :
    _clean s data ctx =
      .ok ((cleanResults s data ctx).map (fun p => (p.1, payloadO p.2))) := by
  unfold _clean
  rw [if_pos (by simpa [List.isEmpty_iff] using h)]

theorem _clean_ok_inv {s : Schema} {data : InData} {ctx : Val}
    {inst : List (String × Val)} (h : _clean s data ctx = .ok inst) :
    errorsOfResults (cleanResults s data ctx) = [] ∧
      inst = (cleanResults s data ctx).map (fun p => (p.1, payloadO p.2)) := by
  by_cases he : errorsOfResults (cleanResults s data ctx) = []
  · refine ⟨he, ?_⟩
    rw [_clean_ok he] at h
    injection h with h
    exact h.symm
  · rw [_clean_err he] at h
    cases h

/-! ## Definition-time dependency resolution -/

theorem extractResolvable_perm (seen : List String) :
    ∀ (deps : List (String × List String)) (n : String)
      (rest : List (String × List String)),
      extractResolvable seen deps = some (n, rest) →
      ∃ ds, ds.all (fun d => seen.contains d) = true ∧
        deps.Perm ((n, ds) :: rest) := by
  intro deps
  induction deps with
  | nil => intro n rest h; cases h
  | cons p l ih =>
    intro n rest h
    obtain ⟨m, dm⟩ := p
    unfold extractResolvable at h
    by_cases hall : dm.all (fun d => seen.contains d) = true
    · rw [if_pos hall] at h
      injection h with h
      injection h with h1 h2
      subst h1
      subst h2
      exact ⟨dm, hall, List.Perm.refl _⟩
    · rw [if_neg hall] at h
      rcases hrec : extractResolvable seen l with _ | ⟨m2, rest2⟩ <;>
        rw [hrec] at h
      · cases h
      · injection h with h
        injection h with h1 h2
        subst h1
        subst h2
        rcases ih _ _ hrec with ⟨ds, hds, hperm⟩
        exact ⟨ds, hds,
          (hperm.cons (m, dm)).trans (List.Perm.swap _ _ _)⟩

theorem checkDepsGo_sound (S : String → Prop) :
    ∀ (fuel : Nat) (deps : List (String × List String)) (seen : List String),
      checkDepsGo fuel deps seen = true →
      (∀ x ∈ seen, S x) →
      (∀ nd ∈ deps, (∀ d ∈ nd.2, S d) → S nd.1) →
      ∀ nd ∈ deps, S nd.1 := by
  intro fuel
  induction fuel with
  | zero =>
    intro deps seen h _ _ nd hnd
    cases deps with
    | nil => cases hnd
    | cons d ds => cases h
  | succ fuel ih =>
    intro deps seen h hseen hcl nd hnd
    cases deps with
    | nil => cases hnd
    | cons d ds =>
      unfold checkDepsGo at h
      rcases hE : extractResolvable seen (d :: ds) with _ | ⟨m, rest⟩ <;>
        rw [hE] at h
      · cases h
      · rcases extractResolvable_perm seen _ _ _ hE with ⟨dm, hdm, hperm⟩
        have hSm : S m := by
          apply hcl (m, dm) (hperm.mem_iff.mpr (List.mem_cons_self _ _))
          intro x hx
          exact hseen x (by simpa using List.all_eq_true.mp hdm x hx)
        have hrest := ih rest (m :: seen) h
          (fun x hx => (List.mem_cons.mp hx).elim (fun he => he ▸ hSm) (hseen x))
          (fun nd2 hnd2 => hcl nd2 (hperm.mem_iff.mpr (List.mem_cons_of_mem _ hnd2)))
        rcases List.mem_cons.mp (hperm.mem_iff.mp hnd) with he | he
        · rw [he]; exact hSm
        · exact hrest nd he

/-- On the success path every schema field received an outcome: the
definition-time acyclicity check guarantees that each field's dependency
chain bottoms out, and with no error anywhere each field eventually became
eligible. -/
theorem cleanResults_total (s : Schema) (data : InData) (ctx : Val)
    (hall : ∀ p ∈ cleanResults s data ctx, isValueO p.2 = true) :
    ∀ n f, (n, f) ∈ s.fields → n ∈ keysOf (cleanResults s data ctx) := by
  intro n f hmem
  have hacy := s.acyclic
  unfold checkDeps at hacy
  have hsound := checkDepsGo_sound
    (fun k => k ∈ keysOf (cleanResults s data ctx)) s.fields.length
    (s.fields.map (fun nf => (nf.1, nf.2.depends_on))) [] hacy
    (fun x hx => absurd hx (List.not_mem_nil x)) ?closure
  · exact hsound (n, f.depends_on) (List.mem_map.mpr ⟨(n, f), hmem, rfl⟩)
  case closure =>
    intro nd hnd hdS
    rcases List.mem_map.mp hnd with ⟨⟨n2, f2⟩, hmem2, heq⟩
    rw [← heq]
    apply (mem_cleanResults_iff s data ctx hmem2).mpr
    intro dep hdep
    have hdmem : dep ∈ keysOf (cleanResults s data ctx) :=
      hdS dep (by rw [← heq]; exact hdep)
    rcases Option.isSome_iff_exists.mp (lookupKey_isSome.mpr hdmem) with ⟨o, ho⟩
    unfold isValueAt
    rw [ho]
    exact hall (dep, o) (lookupKey_mem ho)

theorem checkDepsGo_cycle :
    ∀ (fuel : Nat) (deps : List (String × List String)) (seen : List String)
      (a b : String) (da db : List String),
      (a, da) ∈ deps → (b, db) ∈ deps → b ∈ da → a ∈ db →
      a ∉ seen → b ∉ seen → (deps.map Prod.fst).Nodup →
      checkDepsGo fuel deps seen = false := by
  intro fuel
  induction fuel with
  | zero =>
    intro deps seen a b da db ha _ _ _ _ _ _
    cases deps with
    | nil => cases ha
    | cons d ds => rfl
  | succ fuel ih =>
    intro deps seen a b da db ha hb hba hab hanot hbnot hnd
    cases deps with
    | nil => cases ha
    | cons d ds =>
      unfold checkDepsGo
      rcases hE : extractResolvable seen (d :: ds) with _ | ⟨m, rest⟩
      · rfl
      · rcases extractResolvable_perm seen _ _ _ hE with ⟨dm, hdm, hperm⟩
        have hmdeps : (m, dm) ∈ d :: ds :=
          hperm.mem_iff.mpr (List.mem_cons_self _ _)
        have hseenOf : ∀ x ∈ dm, x ∈ seen := fun x hx => by
          simpa using List.all_eq_true.mp hdm x hx
        have hma : m ≠ a := by
          intro he
          subst he
          have : da = dm := keyUnique hnd ha hmdeps
          exact hbnot (hseenOf b (this ▸ hba))
        have hmb : m ≠ b := by
          intro he
          subst he
          have : db = dm := keyUnique hnd hb hmdeps
          exact hanot (hseenOf a (this ▸ hab))
        have harest : (a, da) ∈ rest := by
          rcases List.mem_cons.mp (hperm.mem_iff.mp ha) with he | he
          · exact absurd (congrArg Prod.fst he).symm hma
          · exact he
        have hbrest : (b, db) ∈ rest := by
          rcases List.mem_cons.mp (hperm.mem_iff.mp hb) with he | he
          · exact absurd (congrArg Prod.fst he).symm hmb
          · exact he
        have hndrest : (rest.map Prod.fst).Nodup := by
          have := ((hperm.map Prod.fst).nodup_iff).mp hnd
          exact (List.nodup_cons.mp this).2
        have hanot2 : a ∉ m :: seen := by
          intro hx
          rcases List.mem_cons.mp hx with hx | hx
          · exact hma hx.symm
          · exact hanot hx
        have hbnot2 : b ∉ m :: seen := by
          intro hx
          rcases List.mem_cons.mp hx with hx | hx
          · exact hmb hx.symm
          · exact hbnot hx
        exact ih rest (m :: seen) a b da db harest hbrest hba hab
          hanot2 hbnot2 hndrest

theorem checkDepsGo_missing :
    ∀ (fuel : Nat) (deps : List (String × List String)) (seen : List String)
      (n d : String) (ds : List String),
      (n, ds) ∈ deps → d ∈ ds → d ∉ deps.map Prod.fst → d ∉ seen →
      checkDepsGo fuel deps seen = false := by
  intro fuel
  induction fuel with
  | zero =>
    intro deps seen n d ds hn _ _ _
    cases deps with
    | nil => cases hn
    | cons p l => rfl
  | succ fuel ih =>
    intro deps seen n d ds hn hd hdkeys hdseen
    cases deps with
    | nil => cases hn
    | cons p l =>
      unfold checkDepsGo
      rcases hE : extractResolvable seen (p :: l) with _ | ⟨m, rest⟩
      · rfl
      · rcases extractResolvable_perm seen _ _ _ hE with ⟨dm, hdm, hperm⟩
        have hnrest : (n, ds) ∈ rest := by
          rcases List.mem_cons.mp (hperm.mem_iff.mp hn) with he | he
          · exfalso
            have hds : ds = dm := congrArg Prod.snd he
            exact hdseen (by simpa using List.all_eq_true.mp hdm d (hds ▸ hd))
          · exact he
        have hmkeys : m ∈ (p :: l).map Prod.fst :=
          List.mem_map.mpr ⟨(m, dm), hperm.mem_iff.mpr (List.mem_cons_self _ _), rfl⟩
        have hdm2 : d ∉ m :: seen := by
          intro hx
          rcases List.mem_cons.mp hx with hx | hx
          · exact hdkeys (hx ▸ hmkeys)
          · exact hdseen hx
        have hdrest : d ∉ rest.map Prod.fst := by
          intro hx
          apply hdkeys
          rcases List.mem_map.mp hx with ⟨q, hq, hq2⟩
          exact List.mem_map.mpr
            ⟨q, hperm.mem_iff.mpr (List.mem_cons_of_mem _ hq), hq2⟩
        exact ih rest (m :: seen) n d ds hnrest hd hdrest hdm2

/-! ## Evaluation of the running examples -/

example :
    _clean exampleSchema happyData Val.vnull =
      .ok [("mylowint", .vint 2), ("myint", .vint 100)] := by decide

example :
    _clean exampleSchema failData Val.vnull =
      .err [⟨"Needs to be less than 5", ["mylowint"]⟩] := by decide

example :
    _clean exampleSchema altData Val.vnull =
      .ok [("mylowint", .vint 2), ("myint", .vint 100)] := by decide

example :
    cleanResults depSchema (.dict []) Val.vnull =
      [("A", .failure ⟨"Value is required.", ["A"]⟩ [])] := by decide

/-! ## Remaining helper lemmas -/

theorem keysOf_map_fst {α β : Type} (g : String × α → β)
    (l : List (String × α)) :
    keysOf (l.map (fun p => (p.1, g p))) = keysOf l := by
  unfold keysOf
  rw [List.map_map]
  rfl

theorem extractRawGo_spec (data : InData) :
    ∀ l : List String,
      extractRawGo data l =
        match l.find? (fun k => !(getter data k Val.vomitted == Val.vomitted)) with
        | some k => getter data k Val.vomitted
        | none => Val.vomitted := by
  intro l
  induction l with
  | nil => rfl
  | cons a l ih =>
    by_cases h : getter data a Val.vomitted = Val.vomitted
    · simp [extractRawGo, List.find?_cons, h, ih]
    · simp [extractRawGo, List.find?_cons, h]

/-! ## The claims -/

/-- C1: `clean` returns (never raises) a `ValidationError` exactly when some
evaluated field produced a non-Value outcome; the error carries the
flattened per-field errors in evaluation order (`errorsOfResults` flattens
the recorded outcomes in results-insertion = evaluation order); otherwise it
builds an instance whose attribute for each schema field is that field's
Value payload. -/
theorem claim_C1 (s : Schema) (data : InData) (ctx : Val) :
    ((∃ p ∈ cleanResults s data ctx, isValueO p.2 = false) →
        _clean s data ctx = .err (errorsOfResults (cleanResults s data ctx)) ∧
        errorsOfResults (cleanResults s data ctx) ≠ []) ∧
    ((∀ p ∈ cleanResults s data ctx, isValueO p.2 = true) →
        _clean s data ctx =
          .ok ((cleanResults s data ctx).map (fun p => (p.1, payloadO p.2))) ∧
        ∀ n f, (n, f) ∈ s.fields → ∃ v,
          lookupKey (cleanResults s data ctx) n = some (.value v) ∧
          lookupKey ((cleanResults s data ctx).map
              (fun p => (p.1, payloadO p.2))) n = some v) := by
  constructor
  · rintro ⟨p, hp, hpv⟩
    have hne : errorsOfResults (cleanResults s data ctx) ≠ [] := by
      intro h
      have := (errorsOfResults_eq_nil_iff _).mp h p hp
      rw [hpv] at this
      cases this
    exact ⟨_clean_err hne, hne⟩
  · intro hall
    have hnil : errorsOfResults (cleanResults s data ctx) = [] :=
      (errorsOfResults_eq_nil_iff _).mpr hall
    refine ⟨_clean_ok hnil, ?_⟩
    intro n f hmem
    have hk := cleanResults_total s data ctx hall n f hmem
    rcases Option.isSome_iff_exists.mp (lookupKey_isSome.mpr hk) with ⟨o, ho⟩
    have hov : isValueO o = true := hall (n, o) (lookupKey_mem ho)
    rcases o with v | e
    · refine ⟨v, ho, ?_⟩
      have hmap := lookupKey_map_fst (fun p => payloadO p.2)
        (cleanResults s data ctx) n
      rw [hmap]
      unfold lookupKey at ho
      rcases Option.map_eq_some'.mp ho with ⟨q, hq, hq2⟩
      rw [hq]
      simp [hq2, payloadO]
    · cases hov

/-- C1 witness: the example schema on failing input. -/
theorem claim_C1_witness :
    _clean exampleSchema failData Val.vnull =
      .err (errorsOfResults (cleanResults exampleSchema failData Val.vnull)) ∧
    errorsOfResults (cleanResults exampleSchema failData Val.vnull) ≠ [] :=
  (claim_C1 exampleSchema failData Val.vnull).1
    ⟨("mylowint", .failure ⟨"Needs to be less than 5", ["mylowint"]⟩ []),
      by decide, rfl⟩

/-- C2: a field with dependencies is evaluated only after all of them
received a `Value` (already among the intermediate results recorded before
it ran); if some dependency received a non-Value outcome, the field is never
evaluated and no error in the aggregate list belongs to it. -/
theorem claim_C2 (s : Schema) (data : InData) (ctx : Val) (n : String)
    (f : Field) (hmem : (n, f) ∈ s.fields) :
    (n ∈ keysOf (cleanResults s data ctx) →
      ∀ dep ∈ f.depends_on,
        isValueAt (beforeKey (cleanResults s data ctx) n) dep = true ∧
        isValueAt (cleanResults s data ctx) dep = true) ∧
    ((∃ dep ∈ f.depends_on, dep ∈ keysOf (cleanResults s data ctx) ∧
        isValueAt (cleanResults s data ctx) dep = false) →
      n ∉ keysOf (cleanResults s data ctx) ∧
      ∀ e ∈ errorsOfResults (cleanResults s data ctx),
        e.field.head? ≠ some n) := by
  have inv := cleanResults_inv s data ctx
  constructor
  · intro hn dep hdep
    have h1 := inv.rdeps n f hmem hn dep hdep
    exact ⟨h1, isValueAt_of_beforeKey h1⟩
  · rintro ⟨dep, hdep, _, hdepfalse⟩
    have hnot : n ∉ keysOf (cleanResults s data ctx) := by
      intro hn
      have := isValueAt_of_beforeKey (inv.rdeps n f hmem hn dep hdep)
      rw [this] at hdepfalse
      cases hdepfalse
    refine ⟨hnot, ?_⟩
    intro e he heq
    rcases mem_errorsOfResults he with ⟨p, hp, _, hpe⟩
    have hep := inv.rpaths p hp e hpe
    rw [hep] at heq
    have hpn : p.1 = n := by injection heq
    apply hnot
    rw [← hpn]
    exact mem_keysOf.mpr ⟨p.2, hp⟩

/-- C2 witness: in `depSchema` with empty input, `A` fails and `B` (which
depends on `A`) is never evaluated. -/
theorem claim_C2_witness :
    "B" ∉ keysOf (cleanResults depSchema (.dict []) Val.vnull) :=
  ((claim_C2 depSchema (.dict []) Val.vnull "B" fieldB
      (List.mem_cons_of_mem _ (List.mem_cons_self _ _))).2
    ⟨"A", by decide, by decide, by decide⟩).1

/-- C3 counterexample: in `depSchema`, `B` is a schema field but after the
evaluation loop it has no recorded outcome (its dependency `A` failed), so
the outcome set is not exhaustive over the schema's fields. -/
theorem claim_C3_cex :
    cleanResults depSchema (.dict []) Val.vnull =
      [("A", .failure ⟨"Value is required.", ["A"]⟩ [])] ∧
    keysOf depSchema.fields = ["A", "B"] ∧
    "B" ∉ keysOf (cleanResults depSchema (.dict []) Val.vnull) := by
  exact ⟨by decide, by decide, by decide⟩

/-- C3 (amended): after the loop each field has at most one recorded
outcome (the keys are duplicate-free and drawn from the schema), and a field
has an outcome exactly when each of its declared dependencies received a
`Value` outcome; in particular every dependency-free field has exactly
one. -/
theorem claim_C3_amended (s : Schema) (data : InData) (ctx : Val) :
    (keysOf (cleanResults s data ctx)).Nodup ∧
    (∀ p ∈ cleanResults s data ctx, p.1 ∈ keysOf s.fields) ∧
    ∀ n f, (n, f) ∈ s.fields →
      (n ∈ keysOf (cleanResults s data ctx) ↔
        ∀ dep ∈ f.depends_on, isValueAt (cleanResults s data ctx) dep = true) := by
  have inv := cleanResults_inv s data ctx
  exact ⟨inv.ndR, inv.rmem, fun n f hmem => mem_cleanResults_iff s data ctx hmem⟩

/-- C3 witness for the amended claim. -/
theorem claim_C3_witness :
    (keysOf (cleanResults exampleSchema happyData Val.vnull)).Nodup :=
  (claim_C3_amended exampleSchema happyData Val.vnull).1

/-- C4: mutually dependent fields make the definition-time check fail with
the dependency-resolution error, before any `clean` call; the check takes
only the field list (and reads only the `depends_on` sets), never any input
data. -/
theorem claim_C4 (fields : List (String × Field)) (a b : String)
    (fa fb : Field) (hnd : (keysOf fields).Nodup)
    (ha : (a, fa) ∈ fields) (hb : (b, fb) ∈ fields)
    (hba : b ∈ fa.depends_on) (hab : a ∈ fb.depends_on) :
    schemaAnnotate fields =
      .error "Field dependencies could not be resolved." := by
  have hfalse : checkDeps fields = false := by
    unfold checkDeps
    apply checkDepsGo_cycle _ _ _ a b fa.depends_on fb.depends_on
    · exact List.mem_map.mpr ⟨(a, fa), ha, rfl⟩
    · exact List.mem_map.mpr ⟨(b, fb), hb, rfl⟩
    · exact hba
    · exact hab
    · exact List.not_mem_nil a
    · exact List.not_mem_nil b
    · rw [List.map_map]
      exact hnd
  simp [schemaAnnotate, hfalse]

/-- C4 witness: `A` depends on `B` and `B` depends on `A`. -/
theorem claim_C4_witness :
    schemaAnnotate [("A", cycFieldA), ("B", cycFieldB)] =
      .error "Field dependencies could not be resolved." :=
  claim_C4 [("A", cycFieldA), ("B", cycFieldB)] "A" "B" cycFieldA cycFieldB
    (by decide) (List.mem_cons_self _ _)
    (List.mem_cons_of_mem _ (List.mem_cons_self _ _)) (by decide) (by decide)

/-- C5: under `Required`, an omitted value and an explicit null fail with
two distinct messages; under `Optional` they short-circuit to the omitted
sentinel and null; in all four cases the outcome does not depend on the
validator chain (the chain is never invoked).  spec-modelled: the executor
lives in field.py, absent from src; messages from the test suite. -/
theorem claim_C5 (f : Field) (path : List String) (ctx : Val) (ir : Results) :
    run_validators { f with nullability := .required } path Val.vomitted ctx ir =
        .failure ⟨"Value is required.", path⟩ [] ∧
    run_validators { f with nullability := .required } path Val.vnull ctx ir =
        .failure ⟨"Value is required, and must not be None.", path⟩ [] ∧
    "Value is required." ≠ "Value is required, and must not be None." ∧
    run_validators { f with nullability := .optional } path Val.vomitted ctx ir =
        .value Val.vomitted ∧
    run_validators { f with nullability := .optional } path Val.vnull ctx ir =
        .value Val.vnull ∧
    ∀ vs : List Validator,
      run_validators { f with validators := vs } path Val.vomitted ctx ir =
        run_validators f path Val.vomitted ctx ir ∧
      run_validators { f with validators := vs } path Val.vnull ctx ir =
        run_validators f path Val.vnull ctx ir := by
  refine ⟨rfl, rfl, by decide, rfl, rfl, ?_⟩
  intro vs
  constructor <;> rcases hn : f.nullability with _ | _ <;>
    simp [run_validators, hn]

/-- C6: raw-value extraction tries the accepted key names in declared order
(the field's own name when none are declared) and returns the value of the
first key present, falling back to the omitted sentinel. -/
theorem claim_C6 (data : InData) (name : String) (f : Field) :
    extractRaw data name f =
      match (acceptsOf name f).find?
          (fun k => !(getter data k Val.vomitted == Val.vomitted)) with
      | some k => getter data k Val.vomitted
      | none => Val.vomitted := by
  unfold extractRaw
  exact extractRawGo_spec data (acceptsOf name f)

/-- C7 counterexample: the spec's own alternate-key input.  All fields of
`exampleSchema` (identity output transforms, no renames) validate
successfully on `altData`, yet serializing the cleaned instance yields
`myint` and drops `deprecated_int`, so `serialize (clean data) ≠ data`. -/
theorem claim_C7_cex :
    _clean exampleSchema altData Val.vnull =
      .ok [("mylowint", Val.vint 2), ("myint", Val.vint 100)] ∧
    lookupKey (_serialize exampleSchema
        [("mylowint", Val.vint 2), ("myint", Val.vint 100)])
      "deprecated_int" = none ∧
    lookupKey [("deprecated_int", Val.vint 100), ("mylowint", Val.vint 2)]
      "deprecated_int" = some (Val.vint 100) := by
  exact ⟨by decide, by decide, by decide⟩

/-- C7 (amended): with identity output transforms and no renames, if `clean`
succeeds, every input key names a schema field, and each attribute of the
resulting instance equals the input's value at the field's own name, then
serializing the instance reproduces the input's bindings at every key. -/
theorem claim_C7 (s : Schema) (entries : List (String × Val)) (ctx : Val)
    (inst : List (String × Val))
    (hser : ∀ nf ∈ s.fields, nf.2.serialize_to = none ∧
        ∀ v, nf.2.serialize_func v = v)
    (hok : _clean s (.dict entries) ctx = .ok inst)
    (hkeys : ∀ k ∈ keysOf entries, k ∈ keysOf s.fields)
    (hvals : ∀ n v, (n, v) ∈ inst → lookupKey entries n = some v) :
    ∀ k, lookupKey (_serialize s inst) k = lookupKey entries k := by
  obtain ⟨hnil, hinst⟩ := _clean_ok_inv hok
  have hall : ∀ p ∈ cleanResults s (.dict entries) ctx, isValueO p.2 = true :=
    (errorsOfResults_eq_nil_iff _).mp hnil
  have hmapeq : _serialize s inst =
      s.fields.map (fun nf => (nf.1, (lookupKey inst nf.1).getD Val.vnull)) := by
    unfold _serialize
    apply List.map_congr_left
    intro nf hnf
    rcases hser nf hnf with ⟨h1, h2⟩
    rw [h1, h2]
    rfl
  intro k
  by_cases hk : k ∈ keysOf s.fields
  · rcases mem_keysOf.mp hk with ⟨fk, hfk⟩
    have hkR : k ∈ keysOf (cleanResults s (.dict entries) ctx) :=
      cleanResults_total s (.dict entries) ctx hall k fk hfk
    have hkinst : k ∈ keysOf inst := by
      rw [hinst, keysOf_map_fst]
      exact hkR
    rcases Option.isSome_iff_exists.mp (lookupKey_isSome.mpr hkinst) with ⟨v, hv⟩
    have hent : lookupKey entries k = some v := hvals k v (lookupKey_mem hv)
    rw [hent, hmapeq]
    have hmap := lookupKey_map_fst
      (fun nf => (lookupKey inst nf.1).getD Val.vnull) s.fields k
    rw [hmap]
    rcases hnf0 : s.fields.find? (fun p => p.1 == k) with _ | nf0
    · exfalso
      have hnone : lookupKey s.fields k = none := by
        unfold lookupKey
        rw [hnf0]
        rfl
      exact lookupKey_eq_none.mp hnone hk
    · have hnf0k : nf0.1 = k := by
        have := List.find?_some hnf0
        simpa using this
      rw [hnf0]
      simp only [Option.map_some']
      rw [hnf0k, hv]
      rfl
  · have h1 : lookupKey (_serialize s inst) k = none := by
      rw [hmapeq]
      exact lookupKey_eq_none.mpr (by rw [keysOf_map_fst]; exact hk)
    have h2 : lookupKey entries k = none :=
      lookupKey_eq_none.mpr (fun hm => hk (hkeys k hm))
    rw [h1, h2]

/-- C7 witness: the spec's round-trip example input, instantiated at key
`myint`. -/
theorem claim_C7_witness :
    lookupKey (_serialize exampleSchema
        [("mylowint", Val.vint 2), ("myint", Val.vint 100)]) "myint" =
      lookupKey [("myint", Val.vint 100), ("mylowint", Val.vint 2)] "myint" :=
  claim_C7 exampleSchema [("myint", Val.vint 100), ("mylowint", Val.vint 2)]
    Val.vnull [("mylowint", Val.vint 2), ("myint", Val.vint 100)]
    (by
      intro nf hnf
      rcases List.mem_cons.mp hnf with h | h
      · rw [h]
        exact ⟨rfl, fun v => rfl⟩
      · rcases List.mem_cons.mp h with h | h
        · rw [h]
          exact ⟨rfl, fun v => rfl⟩
        · cases h)
    (by decide)
    (by
      intro k hk
      exact hk)
    (by
      intro n v h
      rcases List.mem_cons.mp h with h | h
      · simp only [Prod.mk.injEq] at h
        obtain ⟨rfl, rfl⟩ := h
        rfl
      · rcases List.mem_cons.mp h with h | h
        · simp only [Prod.mk.injEq] at h
          obtain ⟨rfl, rfl⟩ := h
          rfl
        · cases h)
    "myint"

/-- C8: the claim says `getter` falls back to attribute access for non-dict
inputs; the code computes `getattr(dict_or_obj, field, default)` but lacks a
`return`, so it returns `None` instead of the attribute value. -/
theorem claim_C8 :
    getter (InData.obj [("myint", Val.vint 5)]) "myint" Val.vomitted =
      Val.vnull ∧
    Val.vnull ≠ Val.vint 5 := ⟨rfl, by decide⟩

/-- C9: the engine is a pure function of schema, data and context (validator
functions are side-effect-free per the spec, and so are Lean functions):
two invocations on equal inputs return equal results, both on the success
path (same instance attributes) and on the failure path (same error list,
same order). -/
theorem claim_C9 (s : Schema) (d1 d2 : InData) (c1 c2 : Val)
    (hd : d1 = d2) (hc : c1 = c2) : _clean s d1 c1 = _clean s d2 c2 := by
  rw [hd, hc]

/-- C9 witness. -/
theorem claim_C9_witness :
    _clean exampleSchema happyData Val.vnull =
      _clean exampleSchema happyData Val.vnull :=
  claim_C9 exampleSchema happyData happyData Val.vnull Val.vnull rfl rfl

/-- C10: a dependency on a name that is not a field of the schema makes the
definition-time check fail with the same dependency-resolution error as a
cycle: the undefined name can never enter the resolved accumulator, so no
pass makes progress once only that field is pending. -/
theorem claim_C10 (fields : List (String × Field)) (n : String) (f : Field)
    (d : String) (hmem : (n, f) ∈ fields) (hd : d ∈ f.depends_on)
    (hnot : d ∉ keysOf fields) :
    schemaAnnotate fields =
      .error "Field dependencies could not be resolved." := by
  have hfalse : checkDeps fields = false := by
    unfold checkDeps
    apply checkDepsGo_missing _ _ _ n d f.depends_on
    · exact List.mem_map.mpr ⟨(n, f), hmem, rfl⟩
    · exact hd
    · rw [List.map_map]
      exact hnot
    · exact List.not_mem_nil d
  simp [schemaAnnotate, hfalse]

/-- C10 witness: a single field depending on the undefined name `Z`. -/
theorem claim_C10_witness :
    schemaAnnotate [("A", { fieldA with depends_on := ["Z"] })] =
      .error "Field dependencies could not be resolved." :=
  claim_C10 [("A", { fieldA with depends_on := ["Z"] })] "A"
    { fieldA with depends_on := ["Z"] } "Z"
    (List.mem_cons_self _ _) (by decide) (by decide)

end Chausie
